import Mathlib

/-!
Verification development for the RosettaSilentToolbox repository.

This file shallowly embeds the parts of the code that the specification
talks about:

* `rstoolbox/bin/rename_decoys.py` — the decoy renamer: argument
  validation (`get_options`), the naming function (`new_names`) and the
  end-to-end renaming procedure (`main`), modelled over an explicit
  association-list file system.  Python's `str.replace` is embedded as
  `replaceAll` on `List Char` (left-to-right, non-overlapping literal
  replacement, including Python's empty-pattern behaviour).
* `rstoolbox/utils/fabian_additions.py` — `get_wanted_aa`, including
  Python's negative-index semantics for `row[f-1]`.
* `rstoolbox/plot/sequence.py` — `_dataframe2logo`, with float
  frequencies modelled as rationals and Python's stable `sorted`
  modelled by `List.insertionSort` on a reflexive total order (the two
  coincide because a stable ascending sort is unique).

Definitions come first, then the supporting lemmas, then one theorem
per specification claim.
-/

namespace Rstoolbox

/-! ## Python `str.replace` on `List Char` -/

/-- One scanning step bound by fuel.  `scanGo pat repl fuel s` replaces
non-overlapping occurrences of `pat` in `s` by `repl`, scanning left to
right, as Python's `str.replace` does for a non-empty pattern.  The fuel
only serves to make the recursion structural; `fuel ≥ s.length` is always
enough because every step consumes at least one character. -/
def scanGo (pat repl : List Char) : Nat → List Char → List Char
  | _, [] => []
  | 0, s => s
  | fuel + 1, c :: rest =>
    if pat.isPrefixOf (c :: rest) then
      repl ++ scanGo pat repl fuel (rest.drop (pat.length - 1))
    else
      c :: scanGo pat repl fuel rest

/-- Replacement of the non-overlapping occurrences of a non-empty
pattern, scanning left to right. -/
def scanReplace (pat repl s : List Char) : List Char :=
  scanGo pat repl s.length s

/-- Python's `s.replace("", r)` inserts `r` before every character and
once at the end. -/
def interleave (repl : List Char) : List Char → List Char
  | [] => repl
  | c :: rest => repl ++ c :: interleave repl rest

/-- Embedding of Python's `data.replace(pat, repl)` (`str.replace`):
global left-to-right non-overlapping literal substitution; an empty
pattern interleaves the replacement. -/
def replaceAll (pat repl s : List Char) : List Char :=
  if pat = [] then interleave repl s else scanReplace pat repl s

/-- The loop `for index, row in names.iterrows(): data =
data.replace(row["description"], row["new"])` of `main`: sequential
application of the replacement rules, in rule order. -/
def seqAll (rules : List (List Char × List Char)) (s : List Char) : List Char :=
  rules.foldl (fun d r => replaceAll r.1 r.2 d) s

/-! ## The specification's simultaneous substitution

The spec describes the output as the source text in which "every textual
occurrence of each original identifier string is replaced by its
generated replacement" and no other text is altered.  `simReplace`
formalises that reading: a single left-to-right scan in which each
occurrence of any (non-empty) rule pattern is replaced by that rule's
replacement, so a replacement never creates or destroys occurrences of
the other patterns. -/

/-- Fuel-bounded simultaneous scan; at each position the first rule
whose non-empty pattern starts here fires. -/
def simGo (rules : List (List Char × List Char)) : Nat → List Char → List Char
  | _, [] => []
  | 0, s => s
  | fuel + 1, c :: rest =>
    match rules.find? (fun r => !r.1.isEmpty && r.1.isPrefixOf (c :: rest)) with
    | some r => r.2 ++ simGo rules fuel ((c :: rest).drop r.1.length)
    | none => c :: simGo rules fuel rest

/-- Simultaneous substitution of all rules, as the specification's
"every literal occurrence of `id_i` has been replaced by
`new_name(i, p)`, and no other text is altered" reads.  This definition
follows the spec's words; the code's sequential `seqAll` is compared
against it. -/
def simReplace (rules : List (List Char × List Char)) (s : List Char) : List Char :=
  simGo rules s.length s

/-! ## The naming function and the rename plan -/

/-- Left-pad a string with zeros to a minimum width, the semantics of
Python's format specifier `05d` for a non-negative integer. -/
def zfill (w : Nat) (s : String) : String :=
  String.mk (List.replicate (w - s.length) '0') ++ s

/-- `new_names(count, prefix)` from `rename_decoys.py`: the Python
format string producing `prefix`, an underscore, and `count` zero-padded
to width 5. -/
def new_names (count : Nat) (pre : String) : String :=
  pre ++ "_" ++ zfill 5 (Nat.repr count)

/-- The rename plan built by `main`: `names["count"] = names.index + 1`
followed by `new_names(row["count"], options.prefix)`, i.e. the parsed
descriptions paired in order with the generated names for positions
1, 2, ....  (`pre` models `options.prefix`.) -/
def plan (ids : List String) (pre : String) : List (List Char × List Char) :=
  ids.enum.map (fun d => (d.2.data, (new_names (d.1 + 1) pre).data))

/-- String-level wrapper for the substitution loop of `main`. -/
def seqAllStr (rules : List (List Char × List Char)) (s : String) : String :=
  String.mk (seqAll rules s.data)

/-! ## The command-line program over an explicit file system -/

/-- The parsed command-line options: `-in:file`, `-prefix`, `-out:file`
(each `default=None`) and `-overwrite` (`default=False`).  `pre` models
the `prefix` attribute. -/
structure Options where
  ifile : Option String
  pre : Option String
  ofile : Option String
  force : Bool
deriving DecidableEq

/-- The exceptions the script can raise. -/
inductive PyError where
  | attributeError (msg : String)
  | ioError (msg : String)
  | parseError (msg : String)
deriving DecidableEq

/-- A file system: an association list from paths to raw file contents. -/
structure FS where
  files : List (String × String)
deriving DecidableEq

/-- Read a file's raw bytes, `none` if the path does not exist. -/
def FS.read (fs : FS) (p : String) : Option String :=
  fs.files.lookup p

/-- `os.path.isfile`. -/
def FS.isfile (fs : FS) (p : String) : Bool :=
  (fs.read p).isSome

/-- Create or overwrite one file. -/
def FS.write (fs : FS) (p c : String) : FS :=
  ⟨(p, c) :: fs.files.filter (fun e => e.1 ≠ p)⟩

/-- Does a path end in ".gz"?  (Python's `path.endswith(".gz")`.) -/
def endsWithGz (p : String) : Bool :=
  ".gz".data.isSuffixOf p.data

/-- `get_options` from `rename_decoys.py`: raise `AttributeError` when
the input file, the output file or the prefix is `None` (in that
order), then raise `IOError` when the output file exists and
`-overwrite` was not given; otherwise hand the three validated strings
to `main`. -/
def get_options (opts : Options) (fs : FS) : Except PyError (String × String × String) :=
  match opts.ifile with
  | none => .error (.attributeError "A filename has to be provided.")
  | some ifile =>
    match opts.ofile with
    | none => .error (.attributeError "Output filename must be provided")
    | some ofile =>
      match opts.pre with
      | none => .error (.attributeError "A prefix for the naming schema needs to be provided")
      | some pre =>
        if fs.isfile ofile && !opts.force then
          .error (.ioError ("File " ++ ofile ++ " exists and will not be overwritten."))
        else
          .ok (ifile, pre, ofile)

/-- Read a file and decompress it when — and only when — its own path
ends in ".gz" (the `gzip.open(...) if ... .endswith(".gz") else
open(...)` branch); `gunz` is the abstract gzip decoder. -/
def readLogical (gunz : String → String) (fs : FS) (path : String) : Except PyError String :=
  match fs.read path with
  | none => .error (.ioError ("No such file or directory: " ++ path))
  | some raw => .ok (if endsWithGz path then gunz raw else raw)

/-- Modelled from the spec: `parse_rosetta_file` lives in `rstoolbox.io`,
which is not part of the sources; the spec treats it as a black box that
"must expose, at minimum, an operation that yields the ordered list of
record identifiers given a file path" and a selector for the
`description` field.  We model it as reading the file (decompressing by
extension, as the same library does) and applying an abstract,
possibly-failing record-identifier extractor `parseRecords` to the
text. -/
def parse_rosetta_file (parseRecords : String → Except PyError (List String))
    (gunz : String → String) (fs : FS) (path : String) : Except PyError (List String) :=
  (readLogical gunz fs path).bind parseRecords

/-- `main` from `rename_decoys.py`: parse the source file to get the
ordered descriptions, build the rename plan, load the whole source text
(decompressing when the source path ends in ".gz"), apply the
substitutions sequentially, and write the result to the destination,
compressing with `gz` when the destination path ends in ".gz". -/
def main (parseRecords : String → Except PyError (List String))
    (gz gunz : String → String) (ifile pre ofile : String) (fs : FS) : Except PyError FS :=
  match parse_rosetta_file parseRecords gunz fs ifile with
  | .error e => .error e
  | .ok descriptions =>
    match readLogical gunz fs ifile with
    | .error e => .error e
    | .ok data =>
      let newData := seqAllStr (plan descriptions pre) data
      .ok (fs.write ofile (if endsWithGz ofile then gz newData else newData))

/-- The whole invocation: `main(get_options())`.  Returns the raised
exception (if any) together with the final file system, so that frame
properties are statable. -/
def runProgram (parseRecords : String → Except PyError (List String))
    (gz gunz : String → String) (opts : Options) (fs : FS) : Option PyError × FS :=
  match get_options opts fs with
  | .error e => (some e, fs)
  | .ok (ifile, pre, ofile) =>
    match main parseRecords gz gunz ifile pre ofile fs with
    | .error e => (some e, fs)
    | .ok fs' => (none, fs')

/-! ## `get_wanted_aa` from `fabian_additions.py` -/

/-- Python sequence indexing `row[i]` for an integer `i`: non-negative
indices count from the front, negative indices count from the back, and
anything else raises `IndexError` (modelled as `none`). -/
def pyGetChar (row : List Char) (i : Int) : Option Char :=
  if 0 ≤ i then row.get? i.toNat
  else if (-i).toNat ≤ row.length then row.get? (row.length - (-i).toNat)
  else none

/-- The inner loop of `get_wanted_aa` for one row: `newseq` collects
`row[f-1]` for `f` in `indices`, and `b` receives the joined string for
this row index — but only if the loop body ran at least once, i.e. only
for non-empty `indices`.  The outer `none` is a raised `IndexError`; the
inner `none` is "no entry in `b` for this row" (a NaN after the aligned
column assignment). -/
def coreseqEntry (row : List Char) (indices : List Int) : Option (Option (List Char)) :=
  match indices with
  | [] => some none
  | _ => (indices.mapM (fun f => pyGetChar row (f - 1))).map some

/-- `get_wanted_aa`'s data frame: the `sequence_A` column, the remaining
columns (opaque to the function), and the `coreseq` column when
present.  Rows are aligned positionally across the fields. -/
structure WantedFrame where
  sequence_A : List (List Char)
  others : List (String × List String)
  coreseq : Option (List (Option (List Char)))
deriving DecidableEq

/-- `get_wanted_aa(dat, indices)`: build `b` row by row from
`sequence_A`, then assign it as the `coreseq` column (aligned on the
row index, so rows without an entry get NaN); `none` is a raised
`IndexError`. -/
def get_wanted_aa (dat : WantedFrame) (indices : List Int) : Option WantedFrame :=
  (dat.sequence_A.mapM (fun row => coreseqEntry row indices)).map
    (fun col => { dat with coreseq := some col })

/-! ## `_dataframe2logo` from `plot/sequence.py` -/

/-- The comparison `sorted(pdata, key=lambda x: x[1])` sorts by.  Python's
`sorted` is stable, and `List.insertionSort` with this reflexive total
relation is the stable ascending sort, so the two agree.  Float
frequencies are modelled as rationals. -/
def freqLe (a b : Char × ℚ) : Prop := a.2 ≤ b.2

instance : DecidableRel freqLe := fun a b => inferInstanceAs (Decidable (a.2 ≤ b.2))

instance : IsTotal (Char × ℚ) freqLe := ⟨fun a b => le_total a.2 b.2⟩

instance : IsTrans (Char × ℚ) freqLe := ⟨fun _ _ _ h h' => le_trans h h'⟩

/-- The per-row body of `_dataframe2logo`: keep the `(letter, value)`
pairs with a strictly positive value, in column order. -/
def pdataOf (aa : List Char) (pos : List ℚ) : List (Char × ℚ) :=
  (aa.zip pos).filter (fun kv => decide (0 < kv.2))

/-- `_dataframe2logo(data)`: for each row of the frequency frame, the
positive `(letter, frequency)` pairs sorted ascending by frequency;
`aa` is the column list `list(data)` and `rows` the frame's rows in
order. -/
def dataframe2logo (aa : List Char) (rows : List (List ℚ)) : List (List (Char × ℚ)) :=
  rows.map (fun pos => List.insertionSort freqLe (pdataOf aa pos))

/-! ## Basic lemmas about the scanner -/

theorem isPrefixOfIff (l1 l2 : List Char) : l1.isPrefixOf l2 = true ↔ l1 <+: l2 :=
  List.isPrefixOf_iff_prefix

theorem scanGo_congr (pat repl : List Char) :
    ∀ f1 f2 s, s.length ≤ f1 → s.length ≤ f2 →
      scanGo pat repl f1 s = scanGo pat repl f2 s := by
  intro f1
  induction f1 with
  | zero =>
    intro f2 s h1 _
    have hs : s = [] := List.eq_nil_of_length_eq_zero (Nat.le_zero.mp h1)
    subst hs
    cases f2 <;> rfl
  | succ f1 ih =>
    intro f2 s h1 h2
    cases s with
    | nil => cases f2 <;> rfl
    | cons c rest =>
      cases f2 with
      | zero => exact absurd h2 (by simp)
      | succ f2 =>
        simp only [scanGo]
        by_cases hm : pat.isPrefixOf (c :: rest)
        · simp only [hm, if_true]
          have hd : (rest.drop (pat.length - 1)).length ≤ f1 := by
            have := List.length_drop (pat.length - 1) rest
            simp only [List.length_cons] at h1
            omega
          have hd2 : (rest.drop (pat.length - 1)).length ≤ f2 := by
            have := List.length_drop (pat.length - 1) rest
            simp only [List.length_cons] at h2
            omega
          rw [ih _ _ hd hd2]
        · simp only [hm, Bool.false_eq_true, if_false]
          have hr1 : rest.length ≤ f1 := by simp only [List.length_cons] at h1; omega
          have hr2 : rest.length ≤ f2 := by simp only [List.length_cons] at h2; omega
          rw [ih _ _ hr1 hr2]

theorem scanReplace_nil (pat repl : List Char) : scanReplace pat repl [] = [] := rfl

theorem scanReplace_cons_pos {pat : List Char} (repl : List Char) {c : Char} {t : List Char}
    (hp : pat ≠ []) (h : pat <+: (c :: t)) :
    scanReplace pat repl (c :: t) = repl ++ scanReplace pat repl ((c :: t).drop pat.length) := by
  obtain ⟨m, hm⟩ : ∃ m, pat.length = m + 1 := by
    cases pat with
    | nil => exact absurd rfl hp
    | cons _ _ => exact ⟨_, rfl⟩
  have hdrop : (c :: t).drop pat.length = t.drop (pat.length - 1) := by
    rw [hm]
    simp [List.drop_succ_cons]
  unfold scanReplace
  simp only [List.length_cons, scanGo, (isPrefixOfIff pat (c :: t)).mpr h, if_true]
  rw [hdrop]
  congr 1
  exact scanGo_congr pat repl t.length (t.drop (pat.length - 1)).length _
    (by simp) le_rfl

theorem scanReplace_cons_neg {pat : List Char} (repl : List Char) {c : Char} {t : List Char}
    (h : ¬ pat <+: (c :: t)) :
    scanReplace pat repl (c :: t) = c :: scanReplace pat repl t := by
  have hb : pat.isPrefixOf (c :: t) = false := by
    rw [Bool.eq_false_iff]
    intro hc
    exact h ((isPrefixOfIff pat (c :: t)).mp hc)
  unfold scanReplace
  simp only [List.length_cons, scanGo, hb, Bool.false_eq_true, if_false]

theorem replaceAll_of_ne {pat : List Char} (repl s : List Char) (hp : pat ≠ []) :
    replaceAll pat repl s = scanReplace pat repl s := by
  unfold replaceAll
  simp [hp]

/-! ## Non-interference lemmas

The heart of the development: when the patterns cannot overlap one
another and share no characters with the replacement texts, the
sequential substitutions of `main` commute with each other and agree
with the specification's simultaneous substitution. -/

/-- A prefix of a scanned text whose characters avoid the replacement
text must already have been a prefix of the original text: replacing
`pat` by `repl` cannot manufacture new prefixes over the alphabet that
avoids `repl`. -/
theorem prefix_of_prefix_scanReplace {pat repl : List Char} (hp : pat ≠ []) (hr : repl ≠ []) :
    ∀ t q : List Char, (∀ c ∈ q, c ∉ repl) →
      q <+: scanReplace pat repl t → q <+: t := by
  intro t
  induction t with
  | nil =>
    intro q _ hq
    rw [scanReplace_nil] at hq
    rw [List.prefix_nil] at hq
    simp [hq]
  | cons c rest ih =>
    intro q hchars hq
    by_cases hm : pat <+: (c :: rest)
    · rw [scanReplace_cons_pos repl hp hm] at hq
      cases q with
      | nil => exact List.nil_prefix
      | cons qh qt =>
        exfalso
        obtain ⟨rh, rt, hrepl⟩ : ∃ rh rt, repl = rh :: rt := by
          cases repl with
          | nil => exact absurd rfl hr
          | cons rh rt => exact ⟨rh, rt, rfl⟩
        rw [hrepl, List.cons_append, List.cons_prefix_cons] at hq
        exact hchars qh (List.mem_cons_self qh qt) (hq.1 ▸ hrepl ▸ List.mem_cons_self rh rt)
    · rw [scanReplace_cons_neg repl hm] at hq
      cases q with
      | nil => exact List.nil_prefix
      | cons qh qt =>
        rw [List.cons_prefix_cons] at hq
        have hqt : qt <+: rest :=
          ih qt (fun ch hch => hchars ch (List.mem_cons_of_mem qh hch)) hq.2
        rw [List.cons_prefix_cons]
        exact ⟨hq.1, hqt⟩

/-- If the pattern matches at no offset inside `a`, the scan walks
straight through `a`. -/
theorem scanReplace_append_of_no_match {pat : List Char} (repl : List Char) :
    ∀ a X : List Char, (∀ k, k < a.length → ¬ pat <+: (a.drop k ++ X)) →
      scanReplace pat repl (a ++ X) = a ++ scanReplace pat repl X := by
  intro a
  induction a with
  | nil => intro X _; rfl
  | cons c a' ih =>
    intro X hno
    have h0 : ¬ pat <+: (c :: (a' ++ X)) := by
      have := hno 0 (by simp)
      simpa using this
    rw [List.cons_append, scanReplace_cons_neg repl h0, ih X (fun k hk => by
      have := hno (k + 1) (by simp; omega)
      simpa using this)]
    rfl

/-- A list all of whose characters avoid the pattern matches the
pattern at no offset. -/
theorem no_match_of_fresh_chars {pat : List Char} (hp : pat ≠ []) (a X : List Char)
    (hfresh : ∀ c ∈ a, c ∉ pat) :
    ∀ k, k < a.length → ¬ pat <+: (a.drop k ++ X) := by
  intro k hk hpre
  obtain ⟨ph, pt, hpat⟩ : ∃ ph pt, pat = ph :: pt := by
    cases pat with
    | nil => exact absurd rfl hp
    | cons ph pt => exact ⟨ph, pt, rfl⟩
  obtain ⟨d, ds, hdrop⟩ : ∃ d ds, a.drop k = d :: ds := by
    cases hdk : a.drop k with
    | nil =>
      have := List.length_drop k a
      rw [hdk] at this
      simp at this
      omega
    | cons d ds => exact ⟨d, ds, rfl⟩
  rw [hpat, hdrop, List.cons_append, List.cons_prefix_cons] at hpre
  have hmem : d ∈ a := List.drop_subset k a (hdrop ▸ List.mem_cons_self d ds)
  exact hfresh d hmem (hpre.1 ▸ hpat ▸ List.mem_cons_self ph pt)

/-- Splitting a prefix of an append. -/
theorem prefix_append_cases {l a X : List α} (h : l <+: a ++ X) : l <+: a ∨ a <+: l := by
  by_cases hlen : l.length ≤ a.length
  · exact Or.inl (List.prefix_of_prefix_length_le h (List.prefix_append a X) hlen)
  · exact Or.inr (List.prefix_of_prefix_length_le (List.prefix_append a X) h (by omega))

/-- Overlap-freedom turns into offset-freedom: a pattern `p` that is
not an infix of `a`, such that `a` is not a prefix of `p` and no
nonempty proper suffix of `a` is a prefix of `p`, matches at no offset
inside `a`. -/
theorem no_match_of_no_overlap {p : List Char} (a X : List Char)
    (h1 : ¬ p <:+: a) (h2 : ¬ a <+: p)
    (hov : ∀ k, 0 < k → k < a.length → ¬ (a.drop k <+: p)) :
    ∀ k, k < a.length → ¬ p <+: (a.drop k ++ X) := by
  intro k hk hpre
  rcases prefix_append_cases hpre with hc | hc
  · exact h1 (hc.isInfix.trans (List.drop_suffix k a).isInfix)
  · rcases Nat.eq_zero_or_pos k with hk0 | hk0
    · rw [hk0, List.drop_zero] at hc
      exact h2 hc
    · exact hov k hk0 hk hc

/-- Scanning walks through a block of characters fresh for the
pattern. -/
theorem scanReplace_fresh_append {pat : List Char} (repl : List Char) (hp : pat ≠ [])
    (a X : List Char) (hfresh : ∀ c ∈ a, c ∉ pat) :
    scanReplace pat repl (a ++ X) = a ++ scanReplace pat repl X :=
  scanReplace_append_of_no_match repl a X (no_match_of_fresh_chars hp a X hfresh)

/-- Scanning walks through a block it cannot overlap with. -/
theorem scanReplace_overlapfree_append {pat : List Char} (repl : List Char)
    (a X : List Char) (h1 : ¬ pat <:+: a) (h2 : ¬ a <+: pat)
    (hov : ∀ k, 0 < k → k < a.length → ¬ (a.drop k <+: pat)) :
    scanReplace pat repl (a ++ X) = a ++ scanReplace pat repl X :=
  scanReplace_append_of_no_match repl a X (no_match_of_no_overlap a X h1 h2 hov)

/-- Scanning a text that starts with the pattern itself. -/
theorem scanReplace_self_append {pat : List Char} (repl : List Char) (hp : pat ≠ [])
    (Z : List Char) :
    scanReplace pat repl (pat ++ Z) = repl ++ scanReplace pat repl Z := by
  obtain ⟨ph, pt, hpat⟩ : ∃ ph pt, pat = ph :: pt := by
    cases pat with
    | nil => exact absurd rfl hp
    | cons ph pt => exact ⟨ph, pt, rfl⟩
  have hpre : pat <+: (ph :: (pt ++ Z)) := by
    rw [← List.cons_append, ← hpat]
    exact List.prefix_append pat Z
  have := @scanReplace_cons_pos pat repl ph (pt ++ Z) hp hpre
  rw [hpat, List.cons_append] at *
  rw [this]
  congr 1
  rw [← List.cons_append, ← hpat, List.drop_left]

/-- The pairwise commutation theorem: two replacement rules whose
patterns are non-empty, cannot overlap each other, and whose characters
avoid each other's replacement texts can be applied in either order. -/
theorem scanReplace_comm {p1 r1 p2 r2 : List Char}
    (hp1 : p1 ≠ []) (hp2 : p2 ≠ []) (hr1 : r1 ≠ []) (hr2 : r2 ≠ [])
    (hn12 : ¬ p1 <:+: p2) (hn21 : ¬ p2 <:+: p1)
    (hov12 : ∀ k, 0 < k → k < p1.length → ¬ (p1.drop k <+: p2))
    (hov21 : ∀ k, 0 < k → k < p2.length → ¬ (p2.drop k <+: p1))
    (hd12 : ∀ c ∈ p2, c ∉ r1) (hd21 : ∀ c ∈ p1, c ∉ r2) :
    ∀ s, scanReplace p2 r2 (scanReplace p1 r1 s) = scanReplace p1 r1 (scanReplace p2 r2 s) := by
  have key : ∀ n s, s.length ≤ n →
      scanReplace p2 r2 (scanReplace p1 r1 s) = scanReplace p1 r1 (scanReplace p2 r2 s) := by
    intro n
    induction n with
    | zero =>
      intro s hs
      have : s = [] := List.eq_nil_of_length_eq_zero (Nat.le_zero.mp hs)
      subst this
      simp [scanReplace_nil]
    | succ n ih =>
      intro s hs
      cases s with
      | nil => simp [scanReplace_nil]
      | cons c t =>
        by_cases h1 : p1 <+: (c :: t)
        · obtain ⟨s', hs'⟩ := h1
          have hlen' : s'.length ≤ n := by
            have := congrArg List.length hs'
            simp at this
            simp at hs
            have hp1len : 1 ≤ p1.length := by
              cases p1 with
              | nil => exact absurd rfl hp1
              | cons _ _ => simp
            omega
          calc scanReplace p2 r2 (scanReplace p1 r1 (c :: t))
              = scanReplace p2 r2 (scanReplace p1 r1 (p1 ++ s')) := by rw [hs']
            _ = scanReplace p2 r2 (r1 ++ scanReplace p1 r1 s') := by
                rw [scanReplace_self_append r1 hp1]
            _ = r1 ++ scanReplace p2 r2 (scanReplace p1 r1 s') := by
                exact scanReplace_fresh_append r2 hp2 r1 _
                  (fun ch hch hmem => hd12 ch hmem hch)
            _ = r1 ++ scanReplace p1 r1 (scanReplace p2 r2 s') := by rw [ih s' hlen']
            _ = scanReplace p1 r1 (p1 ++ scanReplace p2 r2 s') := by
                rw [scanReplace_self_append r1 hp1]
            _ = scanReplace p1 r1 (scanReplace p2 r2 (p1 ++ s')) := by
                rw [scanReplace_overlapfree_append r2 p1 s' hn21
                  (fun hpre => hn12 hpre.isInfix) hov12]
            _ = scanReplace p1 r1 (scanReplace p2 r2 (c :: t)) := by rw [hs']
        · by_cases h2 : p2 <+: (c :: t)
          · obtain ⟨s', hs'⟩ := h2
            have hlen' : s'.length ≤ n := by
              have := congrArg List.length hs'
              simp at this
              simp at hs
              have hp2len : 1 ≤ p2.length := by
                cases p2 with
                | nil => exact absurd rfl hp2
                | cons _ _ => simp
              omega
            calc scanReplace p2 r2 (scanReplace p1 r1 (c :: t))
                = scanReplace p2 r2 (scanReplace p1 r1 (p2 ++ s')) := by rw [hs']
              _ = scanReplace p2 r2 (p2 ++ scanReplace p1 r1 s') := by
                  rw [scanReplace_overlapfree_append r1 p2 s' hn12
                    (fun hpre => hn21 hpre.isInfix) hov21]
              _ = r2 ++ scanReplace p2 r2 (scanReplace p1 r1 s') := by
                  rw [scanReplace_self_append r2 hp2]
              _ = r2 ++ scanReplace p1 r1 (scanReplace p2 r2 s') := by rw [ih s' hlen']
              _ = scanReplace p1 r1 (r2 ++ scanReplace p2 r2 s') := by
                  rw [scanReplace_fresh_append r1 hp1 r2 _
                    (fun ch hch hmem => hd21 ch hmem hch)]
              _ = scanReplace p1 r1 (scanReplace p2 r2 (p2 ++ s')) := by
                  rw [scanReplace_self_append r2 hp2]
              _ = scanReplace p1 r1 (scanReplace p2 r2 (c :: t)) := by rw [hs']
          · have hlen : t.length ≤ n := by simp at hs; omega
            have e1 : scanReplace p1 r1 (c :: t) = c :: scanReplace p1 r1 t :=
              scanReplace_cons_neg r1 h1
            have e2 : scanReplace p2 r2 (c :: t) = c :: scanReplace p2 r2 t :=
              scanReplace_cons_neg r2 h2
            have h1' : ¬ p1 <+: (c :: scanReplace p2 r2 t) := by
              intro hpre
              rw [← e2] at hpre
              exact h1 (prefix_of_prefix_scanReplace hp2 hr2 (c :: t) p1
                (fun ch hch hmem => hd21 ch hch hmem) hpre)
            have h2' : ¬ p2 <+: (c :: scanReplace p1 r1 t) := by
              intro hpre
              rw [← e1] at hpre
              exact h2 (prefix_of_prefix_scanReplace hp1 hr1 (c :: t) p2
                (fun ch hch hmem => hd12 ch hch hmem) hpre)
            rw [e1, e2, scanReplace_cons_neg r2 h2', scanReplace_cons_neg r1 h1',
              ih t hlen]
  intro s
  exact key s.length s le_rfl

/-! ## Unfolding the simultaneous scanner -/

theorem simGo_congr (rules : List (List Char × List Char)) :
    ∀ f1 f2 s, s.length ≤ f1 → s.length ≤ f2 →
      simGo rules f1 s = simGo rules f2 s := by
  intro f1
  induction f1 with
  | zero =>
    intro f2 s h1 _
    have hs : s = [] := List.eq_nil_of_length_eq_zero (Nat.le_zero.mp h1)
    subst hs
    cases f2 <;> rfl
  | succ f1 ih =>
    intro f2 s h1 h2
    cases s with
    | nil => cases f2 <;> rfl
    | cons c rest =>
      cases f2 with
      | zero => exact absurd h2 (by simp)
      | succ f2 =>
        simp only [simGo]
        cases hf : rules.find? (fun r => !r.1.isEmpty && r.1.isPrefixOf (c :: rest)) with
        | none =>
          have hr1 : rest.length ≤ f1 := by simp only [List.length_cons] at h1; omega
          have hr2 : rest.length ≤ f2 := by simp only [List.length_cons] at h2; omega
          rw [ih _ _ hr1 hr2]
        | some r =>
          have hpr := List.find?_some hf
          rw [Bool.and_eq_true] at hpr
          have hne : r.1.length ≠ 0 := by
            intro h0
            have : r.1 = [] := List.eq_nil_of_length_eq_zero h0
            simp [this] at hpr
          have hd1 : ((c :: rest).drop r.1.length).length ≤ f1 := by
            simp only [List.length_drop, List.length_cons] at *
            omega
          have hd2 : ((c :: rest).drop r.1.length).length ≤ f2 := by
            simp only [List.length_drop, List.length_cons] at *
            omega
          dsimp only
          rw [ih _ _ hd1 hd2]

theorem simReplace_nil (rules : List (List Char × List Char)) :
    simReplace rules [] = [] := rfl

theorem simReplace_cons_some {rules : List (List Char × List Char)} {c : Char}
    {t : List Char} {r : List Char × List Char}
    (hf : rules.find? (fun r => !r.1.isEmpty && r.1.isPrefixOf (c :: t)) = some r) :
    simReplace rules (c :: t) = r.2 ++ simReplace rules ((c :: t).drop r.1.length) := by
  have hpr := List.find?_some hf
  rw [Bool.and_eq_true] at hpr
  have hne : r.1.length ≠ 0 := by
    intro h0
    have : r.1 = [] := List.eq_nil_of_length_eq_zero h0
    simp [this] at hpr
  unfold simReplace
  simp only [List.length_cons, simGo, hf]
  congr 1
  exact simGo_congr rules t.length ((c :: t).drop r.1.length).length _
    (by simp only [List.length_drop, List.length_cons]; omega) le_rfl

theorem simReplace_cons_none {rules : List (List Char × List Char)} {c : Char}
    {t : List Char}
    (hf : rules.find? (fun r => !r.1.isEmpty && r.1.isPrefixOf (c :: t)) = none) :
    simReplace rules (c :: t) = c :: simReplace rules t := by
  unfold simReplace
  simp only [List.length_cons, simGo, hf]

/-! ## Non-interference and the sequential/simultaneous agreement -/

/-- The conditions under which the sequential substitutions of `main`
are order-independent and agree with the specification's simultaneous
reading: all patterns and replacements are non-empty, the characters of
every pattern avoid every replacement text, equal patterns belong to
equal rules, no pattern of one rule is a substring of another rule's
pattern, and no nonempty proper suffix of one rule's pattern is a
prefix of another rule's pattern. -/
def NonInterference (rules : List (List Char × List Char)) : Prop :=
  (∀ r ∈ rules, r.1 ≠ [] ∧ r.2 ≠ []) ∧
  (∀ r ∈ rules, ∀ r' ∈ rules, ∀ c ∈ r.1, c ∉ r'.2) ∧
  (∀ r ∈ rules, ∀ r' ∈ rules, r.1 = r'.1 → r = r') ∧
  (∀ r ∈ rules, ∀ r' ∈ rules, r ≠ r' → ¬ r.1 <:+: r'.1) ∧
  (∀ r ∈ rules, ∀ r' ∈ rules, r ≠ r' →
    ∀ k ∈ List.range r.1.length, k ≠ 0 → ¬ (r.1.drop k <+: r'.1))

instance (rules : List (List Char × List Char)) : Decidable (NonInterference rules) := by
  unfold NonInterference
  infer_instance

theorem NonInterference.tail {x : List Char × List Char}
    {rs : List (List Char × List Char)}
    (h : NonInterference (x :: rs)) : NonInterference rs := by
  obtain ⟨h1, h2, h3, h4, h5⟩ := h
  refine ⟨?_, ?_, ?_, ?_, ?_⟩
  · exact fun r hr => h1 r (List.mem_cons_of_mem x hr)
  · exact fun r hr r' hr' => h2 r (List.mem_cons_of_mem x hr) r' (List.mem_cons_of_mem x hr')
  · exact fun r hr r' hr' => h3 r (List.mem_cons_of_mem x hr) r' (List.mem_cons_of_mem x hr')
  · exact fun r hr r' hr' => h4 r (List.mem_cons_of_mem x hr) r' (List.mem_cons_of_mem x hr')
  · exact fun r hr r' hr' => h5 r (List.mem_cons_of_mem x hr) r' (List.mem_cons_of_mem x hr')

theorem seqAll_nil_rules (s : List Char) : seqAll [] s = s := rfl

theorem seqAll_cons_rules (x : List Char × List Char)
    (rs : List (List Char × List Char)) (s : List Char) :
    seqAll (x :: rs) s = seqAll rs (replaceAll x.1 x.2 s) := rfl

theorem seqAll_nil_text (rules : List (List Char × List Char))
    (hNI : NonInterference rules) : seqAll rules [] = [] := by
  induction rules with
  | nil => rfl
  | cons x rs ih =>
    have hx := (hNI.1 x (List.mem_cons_self x rs)).1
    rw [seqAll_cons_rules, replaceAll_of_ne _ _ hx, scanReplace_nil]
    exact ih hNI.tail

/-- Sequential substitution walks through a block of characters fresh
for every pattern. -/
theorem seqAll_fresh_append (rules : List (List Char × List Char))
    (hNI : NonInterference rules) (a : List Char)
    (hfresh : ∀ c ∈ a, ∀ r ∈ rules, c ∉ r.1) :
    ∀ X, seqAll rules (a ++ X) = a ++ seqAll rules X := by
  induction rules with
  | nil => intro X; rfl
  | cons x rs ih =>
    intro X
    have hx := (hNI.1 x (List.mem_cons_self x rs)).1
    rw [seqAll_cons_rules, replaceAll_of_ne _ _ hx,
      scanReplace_fresh_append x.2 hx a X
        (fun c hc => hfresh c hc x (List.mem_cons_self x rs)),
      ← replaceAll_of_ne x.2 X hx]
    exact ih hNI.tail
      (fun c hc r hr => hfresh c hc r (List.mem_cons_of_mem x hr)) _

/-- Sequential substitution of all the rules over a text that starts
with one rule's pattern replaces that pattern and continues. -/
theorem seqAll_rule_append (rules : List (List Char × List Char))
    (hNI : NonInterference rules) (pk rk : List Char)
    (hmem : (pk, rk) ∈ rules) :
    ∀ X, seqAll rules (pk ++ X) = rk ++ seqAll rules X := by
  induction rules with
  | nil => exact absurd hmem (List.not_mem_nil (pk, rk))
  | cons x rs ih =>
    intro X
    have hx := (hNI.1 x (List.mem_cons_self x rs)).1
    have hpk : pk ≠ [] := ((hNI.1 (pk, rk) hmem).1)
    by_cases hcase : x = (pk, rk)
    · subst hcase
      rw [seqAll_cons_rules, replaceAll_of_ne _ _ hx,
        scanReplace_self_append _ hx X]
      have hfresh : ∀ c ∈ rk, ∀ r ∈ rs, c ∉ r.1 := by
        intro c hc r hr hcr
        exact hNI.2.1 r (List.mem_cons_of_mem _ hr) (pk, rk)
          (List.mem_cons_self _ rs) c hcr hc
      rw [seqAll_fresh_append rs hNI.tail rk hfresh]
      rw [seqAll_cons_rules, replaceAll_of_ne _ _ hx]
    · have hmem' : (pk, rk) ∈ rs := by
        rcases List.mem_cons.mp hmem with h | h
        · exact absurd h.symm hcase
        · exact h
      have hxmem : x ∈ x :: rs := List.mem_cons_self x rs
      have hkmem : (pk, rk) ∈ x :: rs := hmem
      have hne : (pk, rk) ≠ x := fun h => hcase h.symm
      have hn1 : ¬ x.1 <:+: pk := by
        have := hNI.2.2.2.1 x hxmem (pk, rk) hkmem (fun h => hcase h)
        simpa using this
      have hn2 : ¬ pk <+: x.1 := by
        intro hpre
        have := hNI.2.2.2.1 (pk, rk) hkmem x hxmem hne
        exact this hpre.isInfix
      have hov : ∀ k, 0 < k → k < pk.length → ¬ (pk.drop k <+: x.1) := by
        intro k hk0 hklen
        have := hNI.2.2.2.2 (pk, rk) hkmem x hxmem hne k
          (List.mem_range.mpr hklen) (Nat.pos_iff_ne_zero.mp hk0)
        simpa using this
      rw [seqAll_cons_rules, replaceAll_of_ne _ _ hx,
        scanReplace_overlapfree_append x.2 pk X hn1 hn2 hov,
        ih hNI.tail hmem' (scanReplace x.1 x.2 X),
        seqAll_cons_rules, replaceAll_of_ne _ _ hx]

/-- Sequential substitution steps over a character at which no pattern
matches. -/
theorem seqAll_cons_no_match (rules : List (List Char × List Char))
    (hNI : NonInterference rules) :
    ∀ c t, (∀ r ∈ rules, ¬ r.1 <+: (c :: t)) →
      seqAll rules (c :: t) = c :: seqAll rules t := by
  induction rules with
  | nil => intro c t _; rfl
  | cons x rs ih =>
    intro c t hno
    have hx := (hNI.1 x (List.mem_cons_self x rs)).1
    have hxr := (hNI.1 x (List.mem_cons_self x rs)).2
    have h1 : ¬ x.1 <+: (c :: t) := hno x (List.mem_cons_self x rs)
    rw [seqAll_cons_rules, replaceAll_of_ne _ _ hx, scanReplace_cons_neg x.2 h1]
    have hno' : ∀ r ∈ rs, ¬ r.1 <+: (c :: scanReplace x.1 x.2 t) := by
      intro r hr hpre
      rw [← scanReplace_cons_neg x.2 h1] at hpre
      have hchars : ∀ ch ∈ r.1, ch ∉ x.2 :=
        fun ch hch => hNI.2.1 r (List.mem_cons_of_mem x hr) x
          (List.mem_cons_self x rs) ch hch
      exact hno r (List.mem_cons_of_mem x hr)
        (prefix_of_prefix_scanReplace hx hxr (c :: t) r.1 hchars hpre)
    rw [ih hNI.tail c (scanReplace x.1 x.2 t) hno']
    rw [seqAll_cons_rules, replaceAll_of_ne _ _ hx]

/-- Under non-interference the sequential substitution of `main` agrees
with the specification's simultaneous substitution. -/
theorem seqAll_eq_simReplace (rules : List (List Char × List Char))
    (hNI : NonInterference rules) :
    ∀ s, seqAll rules s = simReplace rules s := by
  have key : ∀ n s, s.length ≤ n → seqAll rules s = simReplace rules s := by
    intro n
    induction n with
    | zero =>
      intro s hs
      have : s = [] := List.eq_nil_of_length_eq_zero (Nat.le_zero.mp hs)
      subst this
      rw [seqAll_nil_text rules hNI, simReplace_nil]
    | succ n ih =>
      intro s hs
      cases s with
      | nil => rw [seqAll_nil_text rules hNI, simReplace_nil]
      | cons c t =>
        cases hf : rules.find? (fun r => !r.1.isEmpty && r.1.isPrefixOf (c :: t)) with
        | some r =>
          have hpr := List.find?_some hf
          rw [Bool.and_eq_true] at hpr
          have hrmem : r ∈ rules := List.mem_of_find?_eq_some hf
          have hpre : r.1 <+: (c :: t) := (isPrefixOfIff _ _).mp hpr.2
          have hne : r.1 ≠ [] := by
            intro h0
            simp [h0] at hpr
          obtain ⟨s', hs'⟩ := hpre
          have hlen' : s'.length ≤ n := by
            have := congrArg List.length hs'
            simp at this
            simp at hs
            have : 1 ≤ r.1.length := by
              cases hr1 : r.1 with
              | nil => exact absurd hr1 hne
              | cons _ _ => simp
            omega
          have hdrop : (c :: t).drop r.1.length = s' := by
            rw [← hs', List.drop_left]
          rw [simReplace_cons_some hf, hdrop, ← hs',
            seqAll_rule_append rules hNI r.1 r.2 hrmem s', ih s' hlen']
        | none =>
          have hno : ∀ r ∈ rules, ¬ r.1 <+: (c :: t) := by
            intro r hr hpre
            have hfr := List.find?_eq_none.mp hf r hr
            have h1 := (hNI.1 r hr).1
            have hemp : r.1.isEmpty = false := by
              cases hr1 : r.1 with
              | nil => exact absurd hr1 h1
              | cons _ _ => simp
            have h2 : r.1.isPrefixOf (c :: t) = true := (isPrefixOfIff _ _).mpr hpre
            simp [hemp, h2] at hfr
          have hlen : t.length ≤ n := by simp at hs; omega
          rw [simReplace_cons_none hf, seqAll_cons_no_match rules hNI c t hno,
            ih t hlen]
  intro s
  exact key s.length s le_rfl

/-! ## Order independence -/

/-- A fold over a list is invariant under permutations when the folded
operation commutes on the list's members. -/
theorem foldl_perm_of_comm {α β : Type} (f : β → α → β) :
    ∀ {l l' : List α}, l.Perm l' →
      (∀ x ∈ l, ∀ y ∈ l, ∀ z, f (f z x) y = f (f z y) x) →
      ∀ b, l.foldl f b = l'.foldl f b := by
  intro l l' h
  induction h with
  | nil => intro _ _; rfl
  | cons x h ih =>
    intro hcomm b
    simp only [List.foldl_cons]
    exact ih (fun a ha a' ha' z =>
      hcomm a (List.mem_cons_of_mem x ha) a' (List.mem_cons_of_mem x ha') z) (f b x)
  | swap x y l =>
    intro hcomm b
    simp only [List.foldl_cons]
    rw [hcomm y (List.mem_cons_self y (x :: l))
      x (List.mem_cons_of_mem y (List.mem_cons_self x l)) b]
  | trans h1 h2 ih1 ih2 =>
    intro hcomm b
    rw [ih1 hcomm b]
    exact ih2 (fun a ha a' ha' z =>
      hcomm a (h1.mem_iff.mpr ha) a' (h1.mem_iff.mpr ha') z) b

/-- Two distinct rules of a non-interfering rule list commute. -/
theorem replaceAll_comm_of_ni (rules : List (List Char × List Char))
    (hNI : NonInterference rules) :
    ∀ x ∈ rules, ∀ y ∈ rules, ∀ z,
      replaceAll y.1 y.2 (replaceAll x.1 x.2 z) =
      replaceAll x.1 x.2 (replaceAll y.1 y.2 z) := by
  intro x hx y hy z
  by_cases hxy : x = y
  · rw [hxy]
  · have hx1 := (hNI.1 x hx).1
    have hx2 := (hNI.1 x hx).2
    have hy1 := (hNI.1 y hy).1
    have hy2 := (hNI.1 y hy).2
    have hn12 : ¬ x.1 <:+: y.1 := hNI.2.2.2.1 x hx y hy hxy
    have hn21 : ¬ y.1 <:+: x.1 := hNI.2.2.2.1 y hy x hx (fun h => hxy h.symm)
    have hov12 : ∀ k, 0 < k → k < x.1.length → ¬ (x.1.drop k <+: y.1) := by
      intro k hk0 hklen
      exact hNI.2.2.2.2 x hx y hy hxy k (List.mem_range.mpr hklen)
        (Nat.pos_iff_ne_zero.mp hk0)
    have hov21 : ∀ k, 0 < k → k < y.1.length → ¬ (y.1.drop k <+: x.1) := by
      intro k hk0 hklen
      exact hNI.2.2.2.2 y hy x hx (fun h => hxy h.symm) k (List.mem_range.mpr hklen)
        (Nat.pos_iff_ne_zero.mp hk0)
    have hd12 : ∀ c ∈ y.1, c ∉ x.2 := fun c hc => hNI.2.1 y hy x hx c hc
    have hd21 : ∀ c ∈ x.1, c ∉ y.2 := fun c hc => hNI.2.1 x hx y hy c hc
    rw [replaceAll_of_ne _ _ hx1, replaceAll_of_ne _ _ hy1,
      replaceAll_of_ne _ _ hx1, replaceAll_of_ne _ _ hy1]
    exact scanReplace_comm hx1 hy1 hx2 hy2 hn12 hn21 hov12 hov21 hd12 hd21 z

/-- Sequential substitution of a non-interfering rule list does not
depend on the order of the rules. -/
theorem seqAll_perm (rules rules' : List (List Char × List Char))
    (hNI : NonInterference rules) (hperm : rules.Perm rules') (s : List Char) :
    seqAll rules s = seqAll rules' s :=
  foldl_perm_of_comm _ hperm (replaceAll_comm_of_ni rules hNI) s

/-! ## File-system frame lemmas -/

theorem FS.read_write_self (fs : FS) (p c : String) : (fs.write p c).read p = some c := by
  simp [FS.write, FS.read, List.lookup]

theorem lookup_filter_ne (q p : String) :
    ∀ files : List (String × String), q ≠ p →
      (files.filter (fun e => e.1 ≠ p)).lookup q = files.lookup q := by
  intro files hqp
  induction files with
  | nil => rfl
  | cons e rest ih =>
    by_cases hep : e.1 = p
    · have : (decide (e.1 ≠ p)) = false := by simp [hep]
      rw [List.filter_cons, this]
      simp only [Bool.false_eq_true, if_false]
      rw [ih]
      have : (q == e.1) = false := by
        simp only [beq_eq_false_iff_ne, ne_eq]
        rw [hep]
        exact hqp
      simp [List.lookup, this]
    · have : (decide (e.1 ≠ p)) = true := by simp [hep]
      rw [List.filter_cons, this]
      simp only [if_true]
      by_cases hqe : q = e.1
      · simp [List.lookup, hqe]
      · have hbe : (q == e.1) = false := by simp [hqe]
        simp only [List.lookup, hbe]
        exact ih

theorem FS.read_write_ne (fs : FS) (p c q : String) (h : q ≠ p) :
    (fs.write p c).read q = fs.read q := by
  unfold FS.write FS.read
  have hbe : (q == p) = false := by simp [h]
  simp only [List.lookup, hbe]
  exact lookup_filter_ne q p fs.files h

/-! ## Unfolding the program -/

theorem runProgram_of_validated (parseRecords : String → Except PyError (List String))
    (gz gunz : String → String) (ifile pre ofile : String) (force : Bool) (fs : FS)
    (hgo : (fs.isfile ofile && !force) = false) :
    runProgram parseRecords gz gunz ⟨some ifile, some pre, some ofile, force⟩ fs =
      match main parseRecords gz gunz ifile pre ofile fs with
      | .error e => (some e, fs)
      | .ok fs' => (none, fs') := by
  unfold runProgram get_options
  simp [hgo]

theorem main_of_ok (parseRecords : String → Except PyError (List String))
    (gz gunz : String → String) (ifile pre ofile : String) (fs : FS)
    (T : String) (ids : List String)
    (hlog : readLogical gunz fs ifile = .ok T)
    (hparse : parseRecords T = .ok ids) :
    main parseRecords gz gunz ifile pre ofile fs =
      .ok (fs.write ofile (if endsWithGz ofile then gz (seqAllStr (plan ids pre) T)
        else seqAllStr (plan ids pre) T)) := by
  have hpf : parse_rosetta_file parseRecords gunz fs ifile = .ok ids := by
    unfold parse_rosetta_file
    rw [hlog]
    simpa [Except.bind] using hparse
  unfold main
  rw [hpf, hlog]

/-! ## The claims -/

/-- Claim C3: when the destination path already exists and the
overwrite flag is not set, the invocation fails with the
already-exists `IOError` raised in `get_options`, before any write, and
the file system — in particular the pre-existing destination content —
is unchanged. -/
theorem runProgram_already_exists (parseRecords : String → Except PyError (List String))
    (gz gunz : String → String) (ifile pre ofile : String) (fs : FS)
    (hex : fs.isfile ofile = true) :
    runProgram parseRecords gz gunz ⟨some ifile, some pre, some ofile, false⟩ fs =
      (some (.ioError ("File " ++ ofile ++ " exists and will not be overwritten.")), fs) := by
  unfold runProgram get_options
  simp [hex]

theorem runProgram_already_exists_witness :
    FS.isfile ⟨[("out.silent", "old")]⟩ "out.silent" = true ∧
    runProgram (fun _ => .ok ["alpha"]) id id
        ⟨some "in.silent", some "d", some "out.silent", false⟩ ⟨[("out.silent", "old")]⟩ =
      (some (.ioError ("File " ++ "out.silent" ++ " exists and will not be overwritten.")),
        ⟨[("out.silent", "old")]⟩) :=
  ⟨by decide, runProgram_already_exists (fun _ => .ok ["alpha"]) id id
    "in.silent" "d" "out.silent" ⟨[("out.silent", "old")]⟩ (by decide)⟩

/-- Claim C4, amended: a missing (`None`) source path, destination path
or prefix raises an `AttributeError` in `get_options`, before any other
I/O, and the file system is untouched; the code does not, however,
reject an empty-string prefix (see the counterexample). -/
theorem runProgram_missing_args (parseRecords : String → Except PyError (List String))
    (gz gunz : String → String) (opts : Options) (fs : FS)
    (h : opts.ifile = none ∨ opts.ofile = none ∨ opts.pre = none) :
    ∃ msg, runProgram parseRecords gz gunz opts fs = (some (.attributeError msg), fs) := by
  obtain ⟨i, p, o, f⟩ := opts
  cases i with
  | none => exact ⟨_, rfl⟩
  | some ifile =>
    cases o with
    | none => exact ⟨_, rfl⟩
    | some ofile =>
      cases p with
      | none => exact ⟨_, rfl⟩
      | some pre => simp at h

theorem runProgram_missing_args_witness :
    (Options.mk none (some "d") (some "out") false).ifile = none ∧
    ∃ msg, runProgram (fun _ => .ok []) id id
        ⟨none, some "d", some "out", false⟩ ⟨[]⟩ = (some (.attributeError msg), ⟨[]⟩) :=
  ⟨rfl, runProgram_missing_args (fun _ => .ok []) id id
    ⟨none, some "d", some "out", false⟩ ⟨[]⟩ (Or.inl rfl)⟩

/-- Claim C4, counterexample: an invocation whose prefix is the empty
string (present but empty) is not rejected — the program runs to
completion and returns no error, contradicting the claim that an empty
prefix fails with `InvalidArguments` before any I/O. -/
theorem runProgram_empty_prefix_accepted :
    (runProgram (fun _ => .ok ["alpha"]) id id
        ⟨some "in.silent", some "", some "out.silent", false⟩
        ⟨[("in.silent", "alpha")]⟩).1 = none := by
  decide

/-- Claim C6: when the source file cannot be opened or parsed — that
is, when the read-and-parse collaborator fails — the invocation fails
with that error and the file system is unchanged: no partial
destination is left behind, since the destination is written only after
the fully substituted text is computed. -/
theorem runProgram_parse_failure (parseRecords : String → Except PyError (List String))
    (gz gunz : String → String) (ifile pre ofile : String) (force : Bool) (fs : FS)
    (e : PyError)
    (hgo : (fs.isfile ofile && !force) = false)
    (hfail : parse_rosetta_file parseRecords gunz fs ifile = .error e) :
    runProgram parseRecords gz gunz ⟨some ifile, some pre, some ofile, force⟩ fs =
      (some e, fs) := by
  rw [runProgram_of_validated parseRecords gz gunz ifile pre ofile force fs hgo]
  unfold main
  rw [hfail]

theorem runProgram_parse_failure_witness :
    (FS.isfile ⟨[]⟩ "out.silent" && !false) = false ∧
    parse_rosetta_file (fun _ => .ok []) id ⟨[]⟩ "in.silent" =
      .error (.ioError ("No such file or directory: " ++ "in.silent")) ∧
    runProgram (fun _ => .ok []) id id
        ⟨some "in.silent", some "d", some "out.silent", false⟩ ⟨[]⟩ =
      (some (.ioError ("No such file or directory: " ++ "in.silent")), ⟨[]⟩) :=
  ⟨by decide, rfl,
    runProgram_parse_failure (fun _ => .ok []) id id "in.silent" "d" "out.silent" false
      ⟨[]⟩ _ (by decide) rfl⟩

/-- Claim C8: the source is decompressed exactly when the source path
ends in ".gz" and the destination is compressed exactly when the
destination path ends in ".gz", each decided solely by that path's own
extension; for a fixed logical source text `T` the substituted text is
the same for every combination of extensions. -/
theorem runProgram_compression_independent
    (parseRecords : String → Except PyError (List String))
    (gz gunz : String → String) (hinv : ∀ x, gunz (gz x) = x)
    (ifile pre ofile : String) (force : Bool) (fs : FS) (T : String) (ids : List String)
    (hgo : (fs.isfile ofile && !force) = false)
    (hsrc : fs.read ifile = some (if endsWithGz ifile then gz T else T))
    (hparse : parseRecords T = .ok ids) :
    runProgram parseRecords gz gunz ⟨some ifile, some pre, some ofile, force⟩ fs =
      (none, fs.write ofile (if endsWithGz ofile then gz (seqAllStr (plan ids pre) T)
        else seqAllStr (plan ids pre) T)) := by
  have hlog : readLogical gunz fs ifile = .ok T := by
    unfold readLogical
    rw [hsrc]
    cases hgz : endsWithGz ifile with
    | true => simp [hgz, hinv]
    | false => simp [hgz]
  rw [runProgram_of_validated parseRecords gz gunz ifile pre ofile force fs hgo,
    main_of_ok parseRecords gz gunz ifile pre ofile fs T ids hlog hparse]

theorem runProgram_compression_independent_witness :
    (∀ x, id (id x : String) = x) ∧
    (FS.isfile ⟨[("in.gz", "qrs")]⟩ "out.silent" && !false) = false ∧
    FS.read ⟨[("in.gz", "qrs")]⟩ "in.gz" =
      some (if endsWithGz "in.gz" then id ("qrs" : String) else "qrs") ∧
    runProgram (fun _ => .ok ["qrs"]) id id
        ⟨some "in.gz", some "d", some "out.silent", false⟩ ⟨[("in.gz", "qrs")]⟩ =
      (none, FS.write ⟨[("in.gz", "qrs")]⟩ "out.silent"
        (if endsWithGz "out.silent" then id (seqAllStr (plan ["qrs"] "d") "qrs")
          else seqAllStr (plan ["qrs"] "d") "qrs")) :=
  ⟨fun _ => rfl, by decide, by decide,
    runProgram_compression_independent (fun _ => .ok ["qrs"]) id id (fun _ => rfl)
      "in.gz" "d" "out.silent" false ⟨[("in.gz", "qrs")]⟩ "qrs" ["qrs"]
      (by decide) (by decide) rfl⟩

/-- Claim C7, counterexample: a successful invocation can mutate the
source file — when the destination path equals the source path and the
overwrite flag is set, the source is overwritten with the renamed
text. -/
theorem runProgram_mutates_source_example :
    (runProgram (fun _ => .ok ["alpha"]) id id
        ⟨some "f.silent", some "d", some "f.silent", true⟩ ⟨[("f.silent", "alpha")]⟩).1 =
      none ∧
    (runProgram (fun _ => .ok ["alpha"]) id id
        ⟨some "f.silent", some "d", some "f.silent", true⟩ ⟨[("f.silent", "alpha")]⟩).2.read
        "f.silent" ≠ FS.read ⟨[("f.silent", "alpha")]⟩ "f.silent" := by
  decide

/-- Claim C7, amended: every successful invocation creates or
overwrites exactly one file — the destination — leaving every other
path unchanged; in particular, whenever the source path differs from
the destination path, the source file is untouched (the code only ever
opens the source for reading, but when the two paths coincide the
destination write overwrites the source). -/
theorem runProgram_single_write (parseRecords : String → Except PyError (List String))
    (gz gunz : String → String) (ifile pre ofile : String) (force : Bool) (fs fs' : FS)
    (h : runProgram parseRecords gz gunz ⟨some ifile, some pre, some ofile, force⟩ fs =
      (none, fs')) :
    (∃ out, fs' = fs.write ofile out) ∧
    (∀ q, q ≠ ofile → fs'.read q = fs.read q) ∧
    (ifile ≠ ofile → fs'.read ifile = fs.read ifile) := by
  have hgo : (fs.isfile ofile && !force) = false := by
    cases hb : (fs.isfile ofile && !force) with
    | false => rfl
    | true =>
      exfalso
      unfold runProgram get_options at h
      simp [hb] at h
  rw [runProgram_of_validated parseRecords gz gunz ifile pre ofile force fs hgo] at h
  cases hm : main parseRecords gz gunz ifile pre ofile fs with
  | error e =>
    rw [hm] at h
    simp at h
  | ok fsw =>
    rw [hm] at h
    have hfs' : fs' = fsw := by
      have := congrArg Prod.snd h
      simpa using this.symm
    unfold main at hm
    cases hp : parse_rosetta_file parseRecords gunz fs ifile with
    | error e => rw [hp] at hm; simp at hm
    | ok ids =>
      rw [hp] at hm
      cases hl : readLogical gunz fs ifile with
      | error e => rw [hl] at hm; simp at hm
      | ok T =>
        rw [hl] at hm
        simp only [Except.ok.injEq] at hm
        have hw : fs' = fs.write ofile
            (if endsWithGz ofile then gz (seqAllStr (plan ids pre) T)
              else seqAllStr (plan ids pre) T) := by
          rw [hfs', ← hm]
        refine ⟨⟨_, hw⟩, ?_, ?_⟩
        · intro q hq
          rw [hw]
          exact FS.read_write_ne fs ofile _ q hq
        · intro hio
          rw [hw]
          exact FS.read_write_ne fs ofile _ ifile hio

theorem runProgram_single_write_witness :
    (∃ out, (runProgram (fun _ => .ok ["alpha"]) id id
        ⟨some "in.silent", some "d", some "out.silent", false⟩
        ⟨[("in.silent", "alpha")]⟩).2 = FS.write ⟨[("in.silent", "alpha")]⟩ "out.silent" out) ∧
    (∀ q, q ≠ "out.silent" →
      FS.read (runProgram (fun _ => .ok ["alpha"]) id id
        ⟨some "in.silent", some "d", some "out.silent", false⟩
        ⟨[("in.silent", "alpha")]⟩).2 q = FS.read ⟨[("in.silent", "alpha")]⟩ q) ∧
    ("in.silent" ≠ "out.silent" →
      FS.read (runProgram (fun _ => .ok ["alpha"]) id id
        ⟨some "in.silent", some "d", some "out.silent", false⟩
        ⟨[("in.silent", "alpha")]⟩).2 "in.silent" =
        FS.read ⟨[("in.silent", "alpha")]⟩ "in.silent") :=
  runProgram_single_write (fun _ => .ok ["alpha"]) id id "in.silent" "d" "out.silent"
    false ⟨[("in.silent", "alpha")]⟩ _ (by decide)

/-- Claim C1, counterexample: the renamer's destination text is not, in
general, the source text with every occurrence of `id_i` replaced by
`new_name(i, p)`.  With records `"a"`, `"p_00001b"`, prefix `"p"` and
source text `"ab"`, the simultaneous replacement of the claim gives
`"p_00001b"`, but the sequential code produces `"p_00002"`: the first
substitution manufactures an occurrence of the second identifier. -/
theorem runProgram_not_simultaneous_example :
    (runProgram (fun _ => .ok ["a", "p_00001b"]) id id
        ⟨some "in.silent", some "p", some "out.silent", false⟩
        ⟨[("in.silent", "ab")]⟩).2.read "out.silent" = some "p_00002" ∧
    String.mk (simReplace (plan ["a", "p_00001b"] "p") "ab".data) = "p_00001b" ∧
    ("p_00002" : String) ≠ "p_00001b" := by
  decide

/-- Claim C1, amended: when the identifiers and the generated names are
non-interfering — identifiers non-empty and pairwise non-overlapping,
and sharing no character with the generated names — the renamer's
destination is exactly the source text with every literal occurrence of
`id_i` simultaneously replaced by `new_name(i, p)` and no other text
altered, compressed when the destination's own extension asks for
it. -/
theorem runProgram_simultaneous_of_ni
    (parseRecords : String → Except PyError (List String))
    (gz gunz : String → String) (ifile pre ofile : String) (force : Bool) (fs : FS)
    (T : String) (ids : List String)
    (hNI : NonInterference (plan ids pre))
    (hgo : (fs.isfile ofile && !force) = false)
    (hlog : readLogical gunz fs ifile = .ok T)
    (hparse : parseRecords T = .ok ids) :
    runProgram parseRecords gz gunz ⟨some ifile, some pre, some ofile, force⟩ fs =
      (none, fs.write ofile
        (if endsWithGz ofile then gz (String.mk (simReplace (plan ids pre) T.data))
          else String.mk (simReplace (plan ids pre) T.data))) := by
  rw [runProgram_of_validated parseRecords gz gunz ifile pre ofile force fs hgo,
    main_of_ok parseRecords gz gunz ifile pre ofile fs T ids hlog hparse]
  unfold seqAllStr
  rw [seqAll_eq_simReplace (plan ids pre) hNI]

theorem runProgram_simultaneous_of_ni_witness :
    NonInterference (plan ["qrs", "tuv", "wxy"] "d") ∧
    runProgram (fun _ => .ok ["qrs", "tuv", "wxy"]) id id
        ⟨some "in.silent", some "d", some "out.silent", false⟩
        ⟨[("in.silent", "qrs tuv wxy qrs")]⟩ =
      (none, FS.write ⟨[("in.silent", "qrs tuv wxy qrs")]⟩ "out.silent"
        (if endsWithGz "out.silent" then
          id (String.mk (simReplace (plan ["qrs", "tuv", "wxy"] "d") "qrs tuv wxy qrs".data))
        else String.mk (simReplace (plan ["qrs", "tuv", "wxy"] "d") "qrs tuv wxy qrs".data))) :=
  ⟨by decide,
    runProgram_simultaneous_of_ni (fun _ => .ok ["qrs", "tuv", "wxy"]) id id
      "in.silent" "d" "out.silent" false ⟨[("in.silent", "qrs tuv wxy qrs")]⟩
      "qrs tuv wxy qrs" ["qrs", "tuv", "wxy"] (by decide) (by decide) rfl rfl⟩

/-- Claim C5, counterexample: the claim's hypothesis — no original
identifier is a substring of another original identifier or of any
generated identifier — holds for records `"a"`, `"p_00001b"` with
prefix `"p"`, yet applying the substitutions in position order and in
the reverse order to the text `"ab"` gives different results, because
the first replacement text together with the following character forms
a new occurrence of the second identifier. -/
theorem seqAll_order_dependent_example :
    (∀ r ∈ plan ["a", "p_00001b"] "p", ∀ r' ∈ plan ["a", "p_00001b"] "p",
      r ≠ r' → ¬ r.1 <:+: r'.1) ∧
    (∀ r ∈ plan ["a", "p_00001b"] "p", ∀ nm ∈ (plan ["a", "p_00001b"] "p").map Prod.snd,
      ¬ r.1 <:+: nm) ∧
    seqAll (plan ["a", "p_00001b"] "p") "ab".data ≠
      seqAll ((plan ["a", "p_00001b"] "p").reverse) "ab".data := by
  decide

/-- Claim C5, amended: under the stronger non-interference hypothesis —
identifiers non-empty, pairwise not substrings of one another, with no
nonempty proper suffix of one being a prefix of another, and sharing no
character with the (non-empty) generated identifiers — the sequential
substitutions applied in position order give the same final text as
any other order, and the same as the simultaneous substitution. -/
theorem seqAll_order_independent_of_ni (ids : List String) (pre : String)
    (s : List Char) (rules' : List (List Char × List Char))
    (hNI : NonInterference (plan ids pre))
    (hperm : (plan ids pre).Perm rules') :
    seqAll (plan ids pre) s = seqAll rules' s ∧
    seqAll (plan ids pre) s = simReplace (plan ids pre) s :=
  ⟨seqAll_perm (plan ids pre) rules' hNI hperm s,
    seqAll_eq_simReplace (plan ids pre) hNI s⟩

theorem seqAll_order_independent_of_ni_witness :
    seqAll (plan ["qrs", "tuv"] "d") "qrs tuv qrs".data =
      seqAll ((plan ["qrs", "tuv"] "d").reverse) "qrs tuv qrs".data ∧
    seqAll (plan ["qrs", "tuv"] "d") "qrs tuv qrs".data =
      simReplace (plan ["qrs", "tuv"] "d") "qrs tuv qrs".data :=
  seqAll_order_independent_of_ni ["qrs", "tuv"] "d" "qrs tuv qrs".data
    ((plan ["qrs", "tuv"] "d").reverse) (by decide) (by decide)

/-- Claim C2: for every positive position and prefix, `new_names` is
the prefix, an underscore, and the decimal digits of the position
left-padded with zeros to a minimum width of 5; beyond five digits the
numeric text grows and is never truncated (the decimal representation
is a suffix of the result, and the numeric part has length
`max 5 digits`); the function never sees the old identifier, so the
result cannot depend on it. -/
theorem new_names_spec :
    (∀ (n : Nat) (pre : String), 0 < n →
      (new_names n pre).data =
        pre.data ++ '_' ::
          (List.replicate (5 - (Nat.repr n).length) '0' ++ (Nat.repr n).data) ∧
      (new_names n pre).length = pre.length + 1 + max 5 (Nat.repr n).length ∧
      (Nat.repr n).data <:+ (new_names n pre).data) ∧
    new_names 1 "x" = "x_00001" ∧ new_names 123 "x" = "x_00123" ∧
    new_names 100000 "x" = "x_100000" := by
  refine ⟨?_, by decide, by decide, by decide⟩
  intro n pre _
  have hdata : (new_names n pre).data =
      pre.data ++ '_' ::
        (List.replicate (5 - (Nat.repr n).length) '0' ++ (Nat.repr n).data) := by
    simp [new_names, zfill, String.data_append]
  refine ⟨hdata, ?_, ?_⟩
  · have hmax : (5 - (Nat.repr n).length) + (Nat.repr n).length = max 5 (Nat.repr n).length := by
      rcases Nat.le_total (Nat.repr n).length 5 with hle | hle
      · rw [Nat.max_eq_left hle]
        omega
      · rw [Nat.max_eq_right hle]
        omega
    have hrl : (Nat.repr n).length = (Nat.repr n).data.length := rfl
    have hdl : (new_names n pre).data.length =
        pre.data.length + 1 + ((5 - (Nat.repr n).length) + (Nat.repr n).length) := by
      rw [hdata]
      simp only [List.length_append, List.length_cons, List.length_replicate]
      omega
    calc (new_names n pre).length = (new_names n pre).data.length := rfl
      _ = pre.data.length + 1 + ((5 - (Nat.repr n).length) + (Nat.repr n).length) := hdl
      _ = pre.length + 1 + max 5 (Nat.repr n).length := by
          rw [hmax, show pre.length = pre.data.length from rfl]
  · rw [hdata]
    have hassoc : pre.data ++ '_' ::
        (List.replicate (5 - (Nat.repr n).length) '0' ++ (Nat.repr n).data) =
        (pre.data ++ '_' :: List.replicate (5 - (Nat.repr n).length) '0') ++
          (Nat.repr n).data := by
      simp
    rw [hassoc]
    exact List.suffix_append _ _

theorem new_names_spec_witness :
    0 < 7 ∧
    ((new_names 7 "design").data =
      "design".data ++ '_' ::
        (List.replicate (5 - (Nat.repr 7).length) '0' ++ (Nat.repr 7).data) ∧
    (new_names 7 "design").length = "design".length + 1 + max 5 (Nat.repr 7).length ∧
    (Nat.repr 7).data <:+ (new_names 7 "design").data) :=
  ⟨by decide, new_names_spec.1 7 "design" (by decide)⟩

/-! ## Helper lemmas for `get_wanted_aa` -/

theorem optionMapM_eq_map {α β : Type} (g : α → Option β) (h : α → β) :
    ∀ l : List α, (∀ a ∈ l, g a = some (h a)) → l.mapM g = some (l.map h) := by
  intro l
  induction l with
  | nil => intro _; rfl
  | cons a l ih =>
    intro hall
    rw [List.mapM_cons, hall a (List.mem_cons_self a l),
      ih (fun b hb => hall b (List.mem_cons_of_mem a hb))]
    rfl

theorem optionMapM_congr {α β : Type} (g g' : α → Option β) :
    ∀ l : List α, (∀ a ∈ l, g a = g' a) → l.mapM g = l.mapM g' := by
  intro l
  induction l with
  | nil => intro _; rfl
  | cons a l ih =>
    intro hall
    rw [List.mapM_cons, List.mapM_cons, hall a (List.mem_cons_self a l),
      ih (fun b hb => hall b (List.mem_cons_of_mem a hb))]

theorem optionMapM_isSome {α β : Type} (g : α → Option β) :
    ∀ l : List α, (∀ a ∈ l, ∃ b, g a = some b) → ∃ L, l.mapM g = some L := by
  intro l
  induction l with
  | nil => intro _; exact ⟨[], rfl⟩
  | cons a l ih =>
    intro hall
    obtain ⟨b, hb⟩ := hall a (List.mem_cons_self a l)
    obtain ⟨L, hL⟩ := ih (fun c hc => hall c (List.mem_cons_of_mem a hc))
    refine ⟨b :: L, ?_⟩
    rw [List.mapM_cons, hb, hL]
    rfl

theorem pyGetChar_pos (row : List Char) (f : Int) (h : 1 ≤ f) :
    pyGetChar row (f - 1) = row.get? ((f - 1).toNat) := by
  unfold pyGetChar
  rw [if_pos (by omega)]

/-- Claim C9: for a non-empty index list whose entries are 1-based and
within the length of every row's sequence, `get_wanted_aa` returns the
same frame augmented with a `coreseq` column holding, for each row, the
characters of that row's `sequence_A` at the given indices in listed
order; `sequence_A` and all other columns are untouched.  For an empty
index list no `coreseq` entry is produced for any row. -/
theorem get_wanted_aa_spec (dat : WantedFrame) (indices : List Int) :
    (indices ≠ [] →
      (∀ f ∈ indices, 1 ≤ f ∧ ∀ row ∈ dat.sequence_A, f ≤ (row.length : Int)) →
      get_wanted_aa dat indices = some ⟨dat.sequence_A, dat.others,
        some (dat.sequence_A.map
          (fun row => indices.mapM (fun f => row.get? ((f - 1).toNat))))⟩) ∧
    get_wanted_aa dat [] =
      some ⟨dat.sequence_A, dat.others, some (dat.sequence_A.map (fun _ => none))⟩ := by
  constructor
  · intro hne hb
    have hall : ∀ row ∈ dat.sequence_A, coreseqEntry row indices =
        some (indices.mapM (fun f => row.get? ((f - 1).toNat))) := by
      intro row hrow
      have hcongr : indices.mapM (fun f => pyGetChar row (f - 1)) =
          indices.mapM (fun f => row.get? ((f - 1).toNat)) :=
        optionMapM_congr _ _ indices (fun f hf => pyGetChar_pos row f (hb f hf).1)
      obtain ⟨L, hL⟩ : ∃ L, indices.mapM (fun f => row.get? ((f - 1).toNat)) = some L := by
        apply optionMapM_isSome
        intro f hf
        have h1 := (hb f hf).1
        have h2 := (hb f hf).2 row hrow
        have hlt : (f - 1).toNat < row.length := by omega
        exact ⟨row.get ⟨(f - 1).toNat, hlt⟩, List.get?_eq_get hlt⟩
      cases indices with
      | nil => exact absurd rfl hne
      | cons f0 fs =>
        show (((f0 :: fs).mapM (fun f => pyGetChar row (f - 1))).map some) = _
        rw [hcongr, hL]
        rfl
    unfold get_wanted_aa
    rw [optionMapM_eq_map _
      (fun row => indices.mapM (fun f => row.get? ((f - 1).toNat))) _ hall]
    rfl
  · unfold get_wanted_aa
    rw [optionMapM_eq_map (fun row => coreseqEntry row ([] : List Int)) (fun _ => none)
      dat.sequence_A (fun row _ => rfl)]
    rfl

theorem get_wanted_aa_spec_witness :
    ([1, 3] : List Int) ≠ [] ∧
    get_wanted_aa ⟨["abcde".data, "vwxyz".data], [("score", ["1", "2"])], none⟩ [1, 3] =
      some ⟨["abcde".data, "vwxyz".data], [("score", ["1", "2"])],
        some ((["abcde".data, "vwxyz".data] : List (List Char)).map
          (fun row => ([1, 3] : List Int).mapM (fun f => row.get? ((f - 1).toNat))))⟩ :=
  ⟨by decide,
    (get_wanted_aa_spec ⟨["abcde".data, "vwxyz".data], [("score", ["1", "2"])], none⟩
      [1, 3]).1 (by decide) (by decide)⟩

/-- Claim C10: `_dataframe2logo` returns one list per row, in row
order; the list for row `i` contains exactly the `(letter, frequency)`
pairs of that row with a strictly positive frequency (it is a
permutation of the positively-weighted column entries) and is sorted
ascending by frequency. -/
theorem dataframe2logo_spec (aa : List Char) (rows : List (List ℚ)) (i : Nat)
    (h : i < rows.length) (hi : i < (dataframe2logo aa rows).length) :
    (dataframe2logo aa rows).length = rows.length ∧
    ((dataframe2logo aa rows).get ⟨i, hi⟩).Perm (pdataOf aa (rows.get ⟨i, h⟩)) ∧
    List.Sorted freqLe ((dataframe2logo aa rows).get ⟨i, hi⟩) := by
  have hget : (dataframe2logo aa rows).get ⟨i, hi⟩ =
      List.insertionSort freqLe (pdataOf aa (rows.get ⟨i, h⟩)) := by
    simp [dataframe2logo, List.get_eq_getElem, List.getElem_map]
  refine ⟨by simp [dataframe2logo], ?_, ?_⟩
  · rw [hget]
    exact List.perm_insertionSort freqLe _
  · rw [hget]
    exact List.sorted_insertionSort freqLe _

theorem dataframe2logo_spec_witness :
    0 < ([[(1 : ℚ)/2, 0, 1/4]] : List (List ℚ)).length ∧
    ((dataframe2logo ['A', 'B', 'C'] [[(1 : ℚ)/2, 0, 1/4]]).length =
      ([[(1 : ℚ)/2, 0, 1/4]] : List (List ℚ)).length ∧
    ((dataframe2logo ['A', 'B', 'C'] [[(1 : ℚ)/2, 0, 1/4]]).get ⟨0, by decide⟩).Perm
      (pdataOf ['A', 'B', 'C'] (([[(1 : ℚ)/2, 0, 1/4]] : List (List ℚ)).get ⟨0, by decide⟩)) ∧
    List.Sorted freqLe
      ((dataframe2logo ['A', 'B', 'C'] [[(1 : ℚ)/2, 0, 1/4]]).get ⟨0, by decide⟩)) :=
  ⟨by decide,
    dataframe2logo_spec ['A', 'B', 'C'] [[(1 : ℚ)/2, 0, 1/4]] 0 (by decide) (by decide)⟩

end Rstoolbox
